import Mathlib

/-!
Verification of the document validation and formatting module
(`validationUtils`) of the sisal-dashboard-pro point-of-sale application.

Strings are modelled as `List Char`; JavaScript numbers appearing as
parsed values are modelled exactly: a finite parsed value is a decimal
`num / 10 ^ den10` (`DecNum`), and the special `Infinity` values get their
own constructor.  Bounds supplied by callers are modelled as rationals.
-/

/-- `s.replace(/[^\d]+/g, '')`: the input with every non-digit removed. -/
def cleanStr (s : List Char) : List Char := s.filter (fun c => c.isDigit)

/-- Numeric value of a digit character (`+el` on a one-digit string). -/
def digitVal (c : Char) : ℕ := c.toNat - 48

/-- The digit values of the cleaned input, in order. -/
def digitsOf (s : List Char) : List ℕ := (cleanStr s).map digitVal

/-- The regex `(\d)\1{10}` on an 11-digit string: every digit equals the first. -/
def allSameDigits (l : List ℕ) : Bool :=
  match l with
  | [] => true
  | d :: r => r.all (fun x => x == d)

/-- `rest(count)` of `validateCPF`: the reduce over `cpfArray.slice(0, count-12)`
with weight `count - index`, then `* 10 % 11 % 10`. -/
def restCPF (a : List ℕ) (count : ℕ) : ℕ :=
  (((a.take (a.length - (12 - count))).enum.foldl
      (fun soma p => soma + p.2 * (count - p.1)) 0) * 10) % 11 % 10

/-- `validationUtils.validateCPF`. -/
def validateCPF (s : List Char) : Bool :=
  if (digitsOf s).length ≠ 11 then false
  else if allSameDigits (digitsOf s) then false
  else (restCPF (digitsOf s) 10 == (digitsOf s).getD 9 0) &&
       (restCPF (digitsOf s) 11 == (digitsOf s).getD 10 0)

/-- Spec-side weighted sum: digits times a descending weight starting at `w`. -/
def descWeightSum : List ℕ → ℕ → ℕ
  | [], _ => 0
  | d :: r, w => d * w + descWeightSum r (w - 1)

/-- `List.enumFrom` pairs folded with weight `count - index` compute the
descending weighted sum that starts at `count - n`. -/
theorem enumFrom_weight_fold (count : ℕ) (l : List ℕ) :
    ∀ n soma, n + l.length ≤ count →
      (List.foldl (fun soma p => soma + p.2 * (count - p.1)) soma (List.enumFrom n l))
        = soma + descWeightSum l (count - n) := by
  induction l with
  | nil => intro n soma _; simp [descWeightSum]
  | cons d r ih =>
    intro n soma h
    have hr : (n + 1) + r.length ≤ count := by
      simp only [List.length_cons] at h; omega
    have hw : count - (n + 1) = (count - n) - 1 := by omega
    simp only [List.enumFrom, List.foldl_cons, descWeightSum]
    rw [ih (n + 1) (soma + d * (count - n)) hr, hw]
    ring

/-- The embedded `rest` computes the spec's descending weighted sum. -/
theorem restCPF_eq (a : List ℕ) (count : ℕ)
    (h : (a.take (a.length - (12 - count))).length ≤ count) :
    restCPF a count
      = descWeightSum (a.take (a.length - (12 - count))) count * 10 % 11 % 10 := by
  unfold restCPF
  rw [show (a.take (a.length - (12 - count))).enum
        = List.enumFrom 0 (a.take (a.length - (12 - count))) from rfl]
  rw [enumFrom_weight_fold count _ 0 0 (by omega)]
  simp

/-- Unfolding of `validateCPF` into its three checks. -/
theorem validateCPF_true_iff (s : List Char) :
    validateCPF s = true ↔
      ((digitsOf s).length = 11 ∧ allSameDigits (digitsOf s) = false ∧
       restCPF (digitsOf s) 10 = (digitsOf s).getD 9 0 ∧
       restCPF (digitsOf s) 11 = (digitsOf s).getD 10 0) := by
  unfold validateCPF
  by_cases h1 : (digitsOf s).length = 11
  · by_cases h2 : allSameDigits (digitsOf s)
    · simp [h1, h2]
    · simp [h1, h2]
  · simp [h1]

/-- On a nonempty list, the all-same test is the statement that every element
equals the first. -/
theorem allSameDigits_iff (d : ℕ) (r : List ℕ) :
    allSameDigits (d :: r) = true ↔ (∀ x ∈ (d :: r), x = (d :: r).headI) := by
  simp [allSameDigits, List.all_eq_true]

/-- C1: `validateCPF` accepts exactly the inputs whose cleaned form has 11
digits, not all identical, whose 10th digit is the first weighted check digit
(weights 10..2 over the first 9 digits, `sum * 10 % 11 % 10`) and whose 11th
digit is the second (weights 11..2 over the first 10 digits). -/
theorem claim_C1 (s : List Char) :
    validateCPF s = true ↔
      ((digitsOf s).length = 11 ∧
       ¬ (∀ x ∈ digitsOf s, x = (digitsOf s).headI) ∧
       (digitsOf s).getD 9 0 = descWeightSum ((digitsOf s).take 9) 10 * 10 % 11 % 10 ∧
       (digitsOf s).getD 10 0 = descWeightSum ((digitsOf s).take 10) 11 * 10 % 11 % 10) := by
  rw [validateCPF_true_iff]
  constructor
  · rintro ⟨h1, h2, h3, h4⟩
    refine ⟨h1, ?_, ?_, ?_⟩
    · obtain ⟨d, r, hdr⟩ : ∃ d r, digitsOf s = d :: r := by
        cases hl : digitsOf s with
        | nil => rw [hl] at h1; simp at h1
        | cons d r => exact ⟨d, r, rfl⟩
      rw [hdr]
      rw [hdr] at h2
      intro hall
      rw [← allSameDigits_iff] at hall
      rw [hall] at h2
      exact Bool.true_eq_false.mp h2
    · rw [← h3, restCPF_eq _ 10]
      · rw [h1]
      · rw [h1]; simp
    · rw [← h4, restCPF_eq _ 11]
      · rw [h1]
      · rw [h1]; simp
  · rintro ⟨h1, h2, h3, h4⟩
    refine ⟨h1, ?_, ?_, ?_⟩
    · obtain ⟨d, r, hdr⟩ : ∃ d r, digitsOf s = d :: r := by
        cases hl : digitsOf s with
        | nil => rw [hl] at h1; simp at h1
        | cons d r => exact ⟨d, r, rfl⟩
      rw [hdr] at h2 ⊢
      cases hb : allSameDigits (d :: r) with
      | false => rfl
      | true => exact absurd ((allSameDigits_iff d r).mp hb) h2
    · rw [restCPF_eq _ 10]
      · rw [h1, ← h3]
      · rw [h1]; simp
    · rw [restCPF_eq _ 11]
      · rw [h1, ← h4]
      · rw [h1]; simp

/-- The `for` loop of `validateCNPJ`: add `digit * pos`, post-decrement `pos`,
wrapping to 9 whenever it falls under 2. -/
def cnpjLoop : List ℕ → ℕ → ℕ → ℕ
  | [], _, soma => soma
  | d :: rest, pos, soma =>
      cnpjLoop rest (if pos - 1 < 2 then 9 else pos - 1) (soma + d * pos)

/-- The explicit denylist of ten known-invalid business ids. -/
def cnpjDenylisted (c : List ℕ) : Bool :=
  c == List.replicate 14 0 || c == List.replicate 14 1 || c == List.replicate 14 2 ||
  c == List.replicate 14 3 || c == List.replicate 14 4 || c == List.replicate 14 5 ||
  c == List.replicate 14 6 || c == List.replicate 14 7 || c == List.replicate 14 8 ||
  c == List.replicate 14 9

/-- `resultado` of `validateCNPJ`: the loop sum over the first `tamanho`
digits starting at weight `tamanho - 7`, then `soma % 11 < 2 ? 0 : 11 - soma % 11`. -/
def cnpjDV (c : List ℕ) (tamanho : ℕ) : ℕ :=
  if cnpjLoop (c.take tamanho) (tamanho - 7) 0 % 11 < 2 then 0
  else 11 - cnpjLoop (c.take tamanho) (tamanho - 7) 0 % 11

/-- `validationUtils.validateCNPJ`. -/
def validateCNPJ (s : List Char) : Bool :=
  if (digitsOf s).length ≠ 14 then false
  else if cnpjDenylisted (digitsOf s) then false
  else if cnpjDV (digitsOf s) ((digitsOf s).length - 2)
          ≠ ((digitsOf s).drop ((digitsOf s).length - 2)).getD 0 0 then false
  else if cnpjDV (digitsOf s) ((digitsOf s).length - 2 + 1)
          ≠ ((digitsOf s).drop ((digitsOf s).length - 2)).getD 1 0 then false
  else true

/-- Spec-side check digit from a weighted sum: 0 when the remainder mod 11 is
under 2, otherwise 11 minus the remainder. -/
def cnpjCheckDigit (soma : ℕ) : ℕ :=
  if soma % 11 < 2 then 0 else 11 - soma % 11

/-- The weight sequence the loop walks through: start at `p`, decrement,
wrap to 9 under 2. -/
def posListAux : ℕ → ℕ → List ℕ
  | _, 0 => []
  | p, n + 1 => p :: posListAux (if p - 1 < 2 then 9 else p - 1) n

/-- The loop is the sum of digits times the generated weight sequence. -/
theorem cnpjLoop_eq_zip (l : List ℕ) :
    ∀ p soma, cnpjLoop l p soma
      = soma + (List.zipWith (fun d w => d * w) l (posListAux p l.length)).sum := by
  induction l with
  | nil => intro p soma; simp [cnpjLoop, posListAux]
  | cons d r ih =>
    intro p soma
    simp only [cnpjLoop, List.length_cons, posListAux, List.zipWith_cons_cons,
      List.sum_cons]
    rw [ih]
    ring

/-- `cnpjDV` written through the spec-side check digit and weight list. -/
theorem cnpjDV_eq (c : List ℕ) (t : ℕ) (w : List ℕ)
    (hw : posListAux (t - 7) (c.take t).length = w) :
    cnpjDV c t
      = cnpjCheckDigit (List.zipWith (fun d w => d * w) (c.take t) w).sum := by
  unfold cnpjDV cnpjCheckDigit
  rw [cnpjLoop_eq_zip, hw, Nat.zero_add]

/-- Unfolding of `validateCNPJ` into its four checks. -/
theorem validateCNPJ_true_iff (s : List Char) :
    validateCNPJ s = true ↔
      ((digitsOf s).length = 14 ∧ cnpjDenylisted (digitsOf s) = false ∧
       cnpjDV (digitsOf s) ((digitsOf s).length - 2)
         = ((digitsOf s).drop ((digitsOf s).length - 2)).getD 0 0 ∧
       cnpjDV (digitsOf s) ((digitsOf s).length - 2 + 1)
         = ((digitsOf s).drop ((digitsOf s).length - 2)).getD 1 0) := by
  unfold validateCNPJ
  by_cases h1 : (digitsOf s).length = 14
  · by_cases h2 : cnpjDenylisted (digitsOf s)
    · simp [h1, h2]
    · by_cases h3 : cnpjDV (digitsOf s) ((digitsOf s).length - 2)
          = ((digitsOf s).drop ((digitsOf s).length - 2)).getD 0 0
      · by_cases h4 : cnpjDV (digitsOf s) ((digitsOf s).length - 2 + 1)
            = ((digitsOf s).drop ((digitsOf s).length - 2)).getD 1 0
        · simp [h1, h2, h3, h4]
        · simp [h1, h2, h3, h4]
      · simp [h1, h2, h3]
  · simp [h1]

/-- The denylist misses a cleaned input exactly when that input is none of the
ten all-same-digit patterns. -/
theorem cnpjDenylisted_false_iff (c : List ℕ) :
    cnpjDenylisted c = false ↔ (∀ k, k < 10 → c ≠ List.replicate 14 k) := by
  simp only [cnpjDenylisted, Bool.or_eq_false_iff, beq_eq_false_iff_ne, ne_eq]
  constructor
  · intro h k hk
    interval_cases k <;> tauto
  · intro h
    repeat' apply And.intro
    all_goals first
      | exact h 0 (by norm_num) | exact h 1 (by norm_num)
      | exact h 2 (by norm_num) | exact h 3 (by norm_num)
      | exact h 4 (by norm_num) | exact h 5 (by norm_num)
      | exact h 6 (by norm_num) | exact h 7 (by norm_num)
      | exact h 8 (by norm_num) | exact h 9 (by norm_num)

/-- `getD` through `drop`: element `i` after dropping `n` is element `n + i`. -/
theorem getD_drop (l : List ℕ) : ∀ (n i : ℕ), (l.drop n).getD i 0 = l.getD (n + i) 0 := by
  induction l with
  | nil => intro n i; simp
  | cons a t ih =>
    intro n i
    cases n with
    | zero => simp
    | succ n =>
      rw [List.drop_succ_cons, ih n i]
      rw [show n + 1 + i = (n + i) + 1 by omega]
      rfl

/-- C2: `validateCNPJ` accepts exactly the 14-digit cleaned inputs that avoid
the ten all-same-digit strings and whose 13th and 14th digits are the two
check digits obtained from the weighted sums with the cyclical weight lists
`5,4,3,2,9,8,7,6,5,4,3,2` and `6,5,4,3,2,9,8,7,6,5,4,3,2` (`0` when the
remainder mod 11 is under 2, `11 - remainder` otherwise). -/
theorem claim_C2 (s : List Char) :
    validateCNPJ s = true ↔
      ((digitsOf s).length = 14 ∧
       (∀ k, k < 10 → digitsOf s ≠ List.replicate 14 k) ∧
       (digitsOf s).getD 12 0
         = cnpjCheckDigit (List.zipWith (fun d w => d * w) ((digitsOf s).take 12)
             [5, 4, 3, 2, 9, 8, 7, 6, 5, 4, 3, 2]).sum ∧
       (digitsOf s).getD 13 0
         = cnpjCheckDigit (List.zipWith (fun d w => d * w) ((digitsOf s).take 13)
             [6, 5, 4, 3, 2, 9, 8, 7, 6, 5, 4, 3, 2]).sum) := by
  rw [validateCNPJ_true_iff]
  have ht12 : ∀ h : (digitsOf s).length = 14, ((digitsOf s).take 12).length = 12 := by
    intro h; rw [List.length_take, h]; omega
  have ht13 : ∀ h : (digitsOf s).length = 14, ((digitsOf s).take 13).length = 13 := by
    intro h; rw [List.length_take, h]; omega
  constructor
  · rintro ⟨h1, h2, h3, h4⟩
    rw [h1] at h3 h4
    simp only [getD_drop, Nat.add_zero] at h3 h4
    rw [show (14 : ℕ) - 2 = 12 from by norm_num] at h3 h4
    rw [show (12 : ℕ) + 1 = 13 from by norm_num] at h4
    refine ⟨h1, (cnpjDenylisted_false_iff _).mp h2, ?_, ?_⟩
    · rw [← h3,
        cnpjDV_eq (digitsOf s) 12 [5, 4, 3, 2, 9, 8, 7, 6, 5, 4, 3, 2]
          (by rw [ht12 h1]; decide)]
    · rw [← h4,
        cnpjDV_eq (digitsOf s) 13 [6, 5, 4, 3, 2, 9, 8, 7, 6, 5, 4, 3, 2]
          (by rw [ht13 h1]; decide)]
  · rintro ⟨h1, h2, h3, h4⟩
    refine ⟨h1, (cnpjDenylisted_false_iff _).mpr h2, ?_, ?_⟩
    · rw [h1]
      simp only [getD_drop, Nat.add_zero]
      rw [show (14 : ℕ) - 2 = 12 from by norm_num]
      rw [cnpjDV_eq (digitsOf s) 12 [5, 4, 3, 2, 9, 8, 7, 6, 5, 4, 3, 2]
          (by rw [ht12 h1]; decide)]
      exact h3.symm
    · rw [h1]
      simp only [getD_drop]
      rw [show (14 : ℕ) - 2 = 12 from by norm_num,
        show (12 : ℕ) + 1 = 13 from by norm_num]
      rw [cnpjDV_eq (digitsOf s) 13 [6, 5, 4, 3, 2, 9, 8, 7, 6, 5, 4, 3, 2]
          (by rw [ht13 h1]; decide)]
      exact h4.symm

/-- A digit value below 10 rendered back to its character. -/
def renderDigits (l : List ℕ) : List Char := l.map (fun d => Char.ofNat (d + 48))

/-- First check digit of the completion algorithm: weights 10..2 over the 9
base digits, then `* 10 % 11 % 10`. -/
def cpfDV1 (b : List ℕ) : ℕ := descWeightSum b 10 * 10 % 11 % 10

/-- Second check digit: weights 11..2 over the 9 base digits plus the first
check digit. -/
def cpfDV2 (b : List ℕ) : ℕ := descWeightSum (b ++ [cpfDV1 b]) 11 * 10 % 11 % 10

/-- A full 11-digit id built from 9 base digits and its two check digits. -/
def completeCPF (b : List ℕ) : List ℕ := b ++ [cpfDV1 b, cpfDV2 b]

/-- A digit character's value is below 10. -/
theorem digitVal_lt_ten (c : Char) (h : c.isDigit = true) : digitVal c < 10 := by
  unfold Char.isDigit at h
  rw [Bool.and_eq_true, decide_eq_true_iff, decide_eq_true_iff] at h
  have h3 : c.toNat ≤ 57 := h.2
  unfold digitVal
  omega

/-- Every entry of a cleaned digit list is below 10. -/
theorem digitsOf_lt_ten (s : List Char) : ∀ x ∈ digitsOf s, x < 10 := by
  intro x hx
  simp only [digitsOf, cleanStr, List.mem_map, List.mem_filter] at hx
  obtain ⟨c, ⟨_, hdig⟩, hval⟩ := hx
  rw [← hval]
  exact digitVal_lt_ten c hdig

/-- Rendering a digit below 10 gives a digit character. -/
theorem isDigit_render (d : ℕ) (h : d < 10) : (Char.ofNat (d + 48)).isDigit = true := by
  interval_cases d <;> decide

/-- Rendering then reading a digit below 10 gives it back. -/
theorem digitVal_render (d : ℕ) (h : d < 10) : digitVal (Char.ofNat (d + 48)) = d := by
  interval_cases d <;> decide

/-- Cleaning a rendered digit list gives back the digit values. -/
theorem digitsOf_renderDigits (l : List ℕ) (h : ∀ x ∈ l, x < 10) :
    digitsOf (renderDigits l) = l := by
  induction l with
  | nil => rfl
  | cons d r ih =>
    have hd : d < 10 := h d (by simp)
    have hr := ih (fun x hx => h x (by simp [hx]))
    simp only [digitsOf, cleanStr, renderDigits, List.map_cons, List.filter_cons,
      isDigit_render d hd, if_true, List.map_cons] at *
    rw [digitVal_render d hd, hr]

/-- Setting an entry at or past `n` leaves the first `n` entries alone. -/
theorem take_set_ge (l : List ℕ) :
    ∀ (n i a : ℕ), n ≤ i → (l.set i a).take n = l.take n := by
  induction l with
  | nil => intro n i a _; simp
  | cons x t ih =>
    intro n i a hni
    cases n with
    | zero => simp
    | succ m =>
      cases i with
      | zero => omega
      | succ j =>
        simp only [List.set_cons_succ, List.take_succ_cons]
        rw [ih m j a (by omega)]

/-- `getD` at the set position reads the new value. -/
theorem getD_set_self (l : List ℕ) :
    ∀ (i a : ℕ), i < l.length → (l.set i a).getD i 0 = a := by
  induction l with
  | nil => intro i a h; simp at h
  | cons x t ih =>
    intro i a h
    cases i with
    | zero => rfl
    | succ j =>
      simp only [List.set_cons_succ, List.getD_cons_succ]
      exact ih j a (by simpa using h)

/-- `getD` away from the set position reads the old value. -/
theorem getD_set_ne (l : List ℕ) :
    ∀ (i j a : ℕ), i ≠ j → (l.set i a).getD j 0 = l.getD j 0 := by
  induction l with
  | nil => intro i j a _; simp
  | cons x t ih =>
    intro i j a hij
    cases i with
    | zero =>
      cases j with
      | zero => omega
      | succ m => rfl
    | succ n =>
      cases j with
      | zero => rfl
      | succ m =>
        simp only [List.set_cons_succ, List.getD_cons_succ]
        exact ih n m a (by omega)

/-- `getD` right after a list of known length reads the appended head. -/
theorem getD_append_fst (b : List ℕ) (x y : ℕ) :
    (b ++ [x, y]).getD b.length 0 = x := by
  induction b with
  | nil => rfl
  | cons a t ih => simpa using ih

/-- `getD` two places after a list of known length reads the appended second. -/
theorem getD_append_snd (b : List ℕ) (x y : ℕ) :
    (b ++ [x, y]).getD (b.length + 1) 0 = y := by
  induction b with
  | nil => rfl
  | cons a t ih => simpa using ih

/-- C3, counterexample to the mutation half as frozen: "70500000000" is a
valid id, and changing its single digit at 0-indexed position 5 from 0 to 9
gives "70500900000", which `validateCPF` still accepts. -/
theorem claim_C3_counterexample :
    validateCPF "70500000000".toList = true ∧
    digitsOf "70500900000".toList = (digitsOf "70500000000".toList).set 5 9 ∧
    (9 : ℕ) ≠ (digitsOf "70500000000".toList).getD 5 0 ∧
    validateCPF "70500900000".toList = true := by decide

/-- C3 amended: completing any 9 base digits with their two computed check
digits yields an id accepted by `validateCPF` (when the 11 digits are not all
identical); and for an accepted id, changing either of its two check digits
(positions 10 and 11, 1-indexed) to any different digit makes `validateCPF`
reject.  The frozen claim's stronger statement — that changing any of the 11
digits invalidates — fails, see the counterexample. -/
theorem claim_C3_amended :
    (∀ b : List ℕ, b.length = 9 → (∀ x ∈ b, x < 10) →
       ¬ (∀ x ∈ completeCPF b, x = (completeCPF b).headI) →
       validateCPF (renderDigits (completeCPF b)) = true) ∧
    (∀ s : List Char, validateCPF s = true →
       ∀ j, (j = 9 ∨ j = 10) → ∀ d : ℕ, d < 10 → d ≠ (digitsOf s).getD j 0 →
       validateCPF (renderDigits ((digitsOf s).set j d)) = false) := by
  constructor
  · intro b hlen hbound hnotsame
    have hd1 : cpfDV1 b < 10 := Nat.mod_lt _ (by norm_num)
    have hd2 : cpfDV2 b < 10 := Nat.mod_lt _ (by norm_num)
    have hboundc : ∀ x ∈ completeCPF b, x < 10 := by
      intro x hx
      simp only [completeCPF, List.mem_append, List.mem_cons,
        List.not_mem_nil, or_false] at hx
      rcases hx with hx | hx | hx
      · exact hbound x hx
      · rw [hx]; exact hd1
      · rw [hx]; exact hd2
    have hdig : digitsOf (renderDigits (completeCPF b)) = completeCPF b :=
      digitsOf_renderDigits _ hboundc
    have hlenc : (completeCPF b).length = 11 := by
      simp [completeCPF, hlen]
    have htake9 : (completeCPF b).take 9 = b := by
      rw [completeCPF, ← hlen]; exact List.take_left b _
    have hsplit : completeCPF b = (b ++ [cpfDV1 b]) ++ [cpfDV2 b] := by
      simp [completeCPF]
    have hlen10 : (b ++ [cpfDV1 b]).length = 10 := by simp [hlen]
    have htake10 : (completeCPF b).take 10 = b ++ [cpfDV1 b] := by
      rw [hsplit, ← hlen10]; exact List.take_left _ _
    have hget9 : (completeCPF b).getD 9 0 = cpfDV1 b := by
      rw [completeCPF, ← hlen]; exact getD_append_fst b _ _
    have hget10 : (completeCPF b).getD 10 0 = cpfDV2 b := by
      rw [completeCPF, show (10 : ℕ) = b.length + 1 by rw [hlen]]
      exact getD_append_snd b _ _
    rw [validateCPF_true_iff, hdig]
    refine ⟨hlenc, ?_, ?_, ?_⟩
    · obtain ⟨d0, r, hdr⟩ : ∃ d0 r, completeCPF b = d0 :: r := by
        cases hl : completeCPF b with
        | nil => rw [hl] at hlenc; simp at hlenc
        | cons d0 r => exact ⟨d0, r, rfl⟩
      rw [hdr]
      cases hb : allSameDigits (d0 :: r) with
      | false => rfl
      | true =>
        rw [hdr] at hnotsame
        exact absurd ((allSameDigits_iff d0 r).mp hb) hnotsame
    · rw [restCPF_eq _ 10 (by rw [hlenc, htake9, hlen]; norm_num)]
      rw [hlenc, htake9, hget9]
      rfl
    · rw [restCPF_eq _ 11 (by rw [hlenc, htake10, hlen10]; norm_num)]
      rw [hlenc, htake10, hget10]
      rfl
  · intro s hs j hj d hd hne
    obtain ⟨h1, h2, h3, h4⟩ := (validateCPF_true_iff s).mp hs
    have hboundc : ∀ x ∈ (digitsOf s).set j d, x < 10 := by
      intro x hx
      rcases List.mem_or_eq_of_mem_set hx with hx | hx
      · exact digitsOf_lt_ten s x hx
      · rw [hx]; exact hd
    have hdig := digitsOf_renderDigits _ hboundc
    rw [← Bool.not_eq_true, validateCPF_true_iff, hdig]
    rintro ⟨hl, hall, hc1, hc2⟩
    rcases hj with hj | hj
    · rw [hj] at hc1 hne
      have e1 : restCPF ((digitsOf s).set 9 d) 10 = restCPF (digitsOf s) 10 := by
        unfold restCPF
        rw [List.length_set, h1, take_set_ge _ _ _ _ (by norm_num)]
      have e2 : ((digitsOf s).set 9 d).getD 9 0 = d :=
        getD_set_self _ 9 d (by rw [h1]; norm_num)
      rw [e1, e2] at hc1
      exact hne (by rw [← hc1, h3])
    · rw [hj] at hc2 hne
      have e1 : restCPF ((digitsOf s).set 10 d) 11 = restCPF (digitsOf s) 11 := by
        unfold restCPF
        rw [List.length_set, h1, take_set_ge _ _ _ _ (by norm_num)]
      have e2 : ((digitsOf s).set 10 d).getD 10 0 = d :=
        getD_set_self _ 10 d (by rw [h1]; norm_num)
      rw [e1, e2] at hc2
      exact hne (by rw [← hc2, h4])

/-- Witness for the amended C3 at concrete inputs: the completion of the base
digits 1..9 is accepted, and changing the last check digit of the valid id
"12345678909" to 5 is rejected. -/
theorem claim_C3_witness :
    validateCPF (renderDigits (completeCPF [1, 2, 3, 4, 5, 6, 7, 8, 9])) = true ∧
    validateCPF (renderDigits ((digitsOf "12345678909".toList).set 10 5)) = false := by
  constructor
  · exact claim_C3_amended.1 [1, 2, 3, 4, 5, 6, 7, 8, 9] (by decide) (by decide)
      (by decide)
  · exact claim_C3_amended.2 "12345678909".toList (by decide) 10 (Or.inr rfl) 5
      (by decide) (by decide)

/-- Document type tag of the unified identifier validator. -/
inductive DocType where
  | CPF
  | CNPJ
deriving DecidableEq, Repr

/-- Result shape of `validateDocument`. -/
structure DocResult where
  isValid : Bool
  type : Option DocType
  message : String
deriving DecidableEq, Repr

/-- `validationUtils.validateDocument`: classify by cleaned length and
delegate to the matching validator on the raw input. -/
def validateDocument (document : List Char) : DocResult :=
  if (cleanStr document).length = 11 then
    { isValid := validateCPF document, type := some DocType.CPF,
      message := if validateCPF document then "CPF válido" else "CPF inválido" }
  else if (cleanStr document).length = 14 then
    { isValid := validateCNPJ document, type := some DocType.CNPJ,
      message := if validateCNPJ document then "CNPJ válido" else "CNPJ inválido" }
  else
    { isValid := false, type := none,
      message := "Documento deve ter 11 dígitos (CPF) ou 14 dígitos (CNPJ)" }

/-- C4: a cleaned length of 11 classifies as CPF with `validateCPF`'s verdict,
14 as CNPJ with `validateCNPJ`'s verdict, and any other cleaned length gives
an invalid result with no type and the message stating the required lengths;
a structured result is always returned. -/
theorem claim_C4 (s : List Char) :
    ((cleanStr s).length = 11 →
      validateDocument s =
        { isValid := validateCPF s, type := some DocType.CPF,
          message := if validateCPF s then "CPF válido" else "CPF inválido" }) ∧
    ((cleanStr s).length = 14 →
      validateDocument s =
        { isValid := validateCNPJ s, type := some DocType.CNPJ,
          message := if validateCNPJ s then "CNPJ válido" else "CNPJ inválido" }) ∧
    ((cleanStr s).length ≠ 11 → (cleanStr s).length ≠ 14 →
      validateDocument s =
        { isValid := false, type := none,
          message := "Documento deve ter 11 dígitos (CPF) ou 14 dígitos (CNPJ)" }) := by
  refine ⟨fun h => ?_, fun h => ?_, fun h h2 => ?_⟩
  · unfold validateDocument
    rw [if_pos h]
  · unfold validateDocument
    rw [if_neg (by rw [h]; norm_num), if_pos h]
  · unfold validateDocument
    rw [if_neg h, if_neg h2]

/-- Witness for C4: "123.456.789-09" cleans to 11 digits and classifies as a
valid CPF; "12345" classifies as neither. -/
theorem claim_C4_witness :
    validateDocument "123.456.789-09".toList =
      { isValid := true, type := some DocType.CPF, message := "CPF válido" } ∧
    validateDocument "12345".toList =
      { isValid := false, type := none,
        message := "Documento deve ter 11 dígitos (CPF) ou 14 dígitos (CNPJ)" } := by
  constructor
  · rw [(claim_C4 "123.456.789-09".toList).1 (by decide)]
    decide
  · exact (claim_C4 "12345".toList).2.2 (by decide) (by decide)

/-- `validationUtils.formatPhone`: 10 cleaned digits print as
`(DD) DDDD-DDDD`, 11 as `(DD) DDDDD-DDDD`, anything else passes through. -/
def formatPhone (phone : List Char) : List Char :=
  if (cleanStr phone).length = 10 then
    '(' :: ((cleanStr phone).take 2 ++ ')' :: ' ' ::
      (((cleanStr phone).drop 2).take 4 ++ '-' :: (cleanStr phone).drop 6))
  else if (cleanStr phone).length = 11 then
    '(' :: ((cleanStr phone).take 2 ++ ')' :: ' ' ::
      (((cleanStr phone).drop 2).take 5 ++ '-' :: (cleanStr phone).drop 7))
  else phone

/-- C6: `formatPhone` strips non-digits and renders 10 digits as
`(DD) DDDD-DDDD`, 11 digits as `(DD) DDDDD-DDDD`, and anything else is
returned exactly as given, with the three concrete examples of the spec. -/
theorem claim_C6 (s : List Char) :
    ((cleanStr s).length = 10 →
      formatPhone s = '(' :: ((cleanStr s).take 2 ++ ')' :: ' ' ::
        (((cleanStr s).drop 2).take 4 ++ '-' :: (cleanStr s).drop 6))) ∧
    ((cleanStr s).length = 11 →
      formatPhone s = '(' :: ((cleanStr s).take 2 ++ ')' :: ' ' ::
        (((cleanStr s).drop 2).take 5 ++ '-' :: (cleanStr s).drop 7))) ∧
    ((cleanStr s).length ≠ 10 → (cleanStr s).length ≠ 11 → formatPhone s = s) ∧
    formatPhone "11987654321".toList = "(11) 98765-4321".toList ∧
    formatPhone "1133224455".toList = "(11) 3322-4455".toList ∧
    formatPhone "123".toList = "123".toList := by
  refine ⟨fun h => ?_, fun h => ?_, fun h h2 => ?_, by decide, by decide, by decide⟩
  · unfold formatPhone
    rw [if_pos h]
  · unfold formatPhone
    rw [if_neg (by rw [h]; norm_num), if_pos h]
  · unfold formatPhone
    rw [if_neg h, if_neg h2]

/-- Cleaning is idempotent: filtering digits twice filters once. -/
theorem cleanStr_idem (s : List Char) : cleanStr (cleanStr s) = cleanStr s := by
  unfold cleanStr
  rw [List.filter_filter]
  congr 1
  funext c
  exact Bool.and_self _

/-- `validateCPF` reads only the cleaned digits. -/
theorem validateCPF_congr (t s : List Char) (h : digitsOf t = digitsOf s) :
    validateCPF t = validateCPF s := by
  unfold validateCPF; rw [h]

/-- `validateCNPJ` reads only the cleaned digits. -/
theorem validateCNPJ_congr (t s : List Char) (h : digitsOf t = digitsOf s) :
    validateCNPJ t = validateCNPJ s := by
  unfold validateCNPJ; rw [h]

/-- `validateDocument` reads only the cleaned digits. -/
theorem validateDocument_congr (t s : List Char) (h : cleanStr t = cleanStr s) :
    validateDocument t = validateDocument s := by
  have hd : digitsOf t = digitsOf s := by unfold digitsOf; rw [h]
  unfold validateDocument
  rw [h, validateCPF_congr t s hd, validateCNPJ_congr t s hd]

/-- C9: every identifier validator is invariant under cleaning — it gives the
same verdict on the raw input and on its digits-only form — and, more
generally, any two inputs with the same digits in the same order (punctuation
inserted or removed anywhere) get identical results from `validateCPF`,
`validateCNPJ` and `validateDocument`. -/
theorem claim_C9 (s : List Char) :
    validateCPF (cleanStr s) = validateCPF s ∧
    validateCNPJ (cleanStr s) = validateCNPJ s ∧
    validateDocument (cleanStr s) = validateDocument s ∧
    (∀ t, cleanStr t = cleanStr s →
      validateCPF t = validateCPF s ∧ validateCNPJ t = validateCNPJ s ∧
      validateDocument t = validateDocument s) := by
  have hclean : cleanStr (cleanStr s) = cleanStr s := cleanStr_idem s
  have hd : digitsOf (cleanStr s) = digitsOf s := by unfold digitsOf; rw [hclean]
  refine ⟨validateCPF_congr _ _ hd, validateCNPJ_congr _ _ hd,
    validateDocument_congr _ _ hclean, fun t ht => ?_⟩
  have htd : digitsOf t = digitsOf s := by unfold digitsOf; rw [ht]
  exact ⟨validateCPF_congr _ _ htd, validateCNPJ_congr _ _ htd,
    validateDocument_congr _ _ ht⟩

/-- Witness for C9: the punctuated and bare forms of the same id get the same
structured result. -/
theorem claim_C9_witness :
    validateDocument "123.456.789-09".toList
      = validateDocument "12345678909".toList := by
  exact ((claim_C9 "12345678909".toList).2.2.2 "123.456.789-09".toList
    (by decide)).2.2

/-- JavaScript whitespace skipped by `parseFloat` and removed by `trim`. -/
def isWs (c : Char) : Bool :=
  c = ' ' || c = '\t' || c = '\n' || c = '\r' || c = '\x0b' || c = '\x0c'

/-- A finite JavaScript number as parsed from a decimal literal, held exactly
as `num / 10 ^ den10`. -/
structure DecNum where
  num : ℤ
  den10 : ℕ
deriving DecidableEq, Repr

/-- A `parseFloat` value: finite, or a signed `Infinity`; `NaN` is `none` at
the use sites. -/
inductive JsNum where
  | finite (d : DecNum)
  | infinity (neg : Bool)
deriving DecidableEq, Repr

/-- Value of a digit string read most-significant first. -/
def digitsToNat (l : List Char) : ℕ := l.foldl (fun n c => n * 10 + digitVal c) 0

/-- Leading sign of a numeric literal: consume one `-` or `+` if present. -/
def parseSign (s : List Char) : Bool × List Char :=
  match s with
  | [] => (false, [])
  | c :: r => if c = '-' then (true, r) else if c = '+' then (false, r) else (false, c :: r)

/-- Integer digits, fraction digits and the remaining characters of a literal
body: digits, then optionally a dot followed by more digits. -/
def mantissaParts (s : List Char) : List Char × List Char × List Char :=
  if (s.dropWhile Char.isDigit).headI = '.' ∧ s.dropWhile Char.isDigit ≠ [] then
    (s.takeWhile Char.isDigit,
     (s.dropWhile Char.isDigit).tail.takeWhile Char.isDigit,
     (s.dropWhile Char.isDigit).tail.dropWhile Char.isDigit)
  else (s.takeWhile Char.isDigit, [], s.dropWhile Char.isDigit)

/-- Exponent of a literal: `e` or `E`, an optional sign, then digits; it
contributes only when at least one digit follows. -/
def expVal (s : List Char) : ℤ :=
  match s with
  | [] => 0
  | c :: r =>
    if c = 'e' ∨ c = 'E' then
      if (parseSign r).2.takeWhile Char.isDigit = [] then 0
      else if (parseSign r).1 then
        -(digitsToNat ((parseSign r).2.takeWhile Char.isDigit) : ℤ)
      else (digitsToNat ((parseSign r).2.takeWhile Char.isDigit) : ℤ)
    else 0

/-- The literal body after sign handling: `Infinity`, or the longest decimal
literal prefix; `none` when no digit was read. -/
def parseFloatBody (t : List Char) (neg : Bool) : Option JsNum :=
  if t.take 8 = "Infinity".toList then some (JsNum.infinity neg)
  else if (mantissaParts t).1 = [] ∧ (mantissaParts t).2.1 = [] then none
  else
    some (JsNum.finite
      (if 0 ≤ expVal (mantissaParts t).2.2 then
        ⟨(if neg then
            -((digitsToNat (mantissaParts t).1 * 10 ^ (mantissaParts t).2.1.length
                + digitsToNat (mantissaParts t).2.1 : ℕ) : ℤ)
          else ((digitsToNat (mantissaParts t).1 * 10 ^ (mantissaParts t).2.1.length
                + digitsToNat (mantissaParts t).2.1 : ℕ) : ℤ))
            * 10 ^ (expVal (mantissaParts t).2.2).toNat,
         (mantissaParts t).2.1.length⟩
      else
        ⟨(if neg then
            -((digitsToNat (mantissaParts t).1 * 10 ^ (mantissaParts t).2.1.length
                + digitsToNat (mantissaParts t).2.1 : ℕ) : ℤ)
          else ((digitsToNat (mantissaParts t).1 * 10 ^ (mantissaParts t).2.1.length
                + digitsToNat (mantissaParts t).2.1 : ℕ) : ℤ)),
         (mantissaParts t).2.1.length + (-expVal (mantissaParts t).2.2).toNat⟩))

/-- `parseFloat`: skip whitespace, read an optional sign, then the body. -/
def parseFloat (s : List Char) : Option JsNum :=
  parseFloatBody (parseSign (s.dropWhile isWs)).2 (parseSign (s.dropWhile isWs)).1

/-- Exact rational value of a finite parsed number. -/
def DecNum.toQ (d : DecNum) : ℚ := (d.num : ℚ) / 10 ^ d.den10

/-- The parsed value is strictly below the bound (negative infinity is below
everything, positive infinity below nothing). -/
def JsLt (x : JsNum) (m : ℚ) : Prop :=
  match x with
  | .finite d => d.toQ < m
  | .infinity neg => neg = true

/-- The parsed value strictly exceeds the bound. -/
def JsGt (x : JsNum) (M : ℚ) : Prop :=
  match x with
  | .finite d => M < d.toQ
  | .infinity neg => neg = false

/-- The parsed value is at least zero. -/
def JsGe0 (x : JsNum) : Prop :=
  match x with
  | .finite d => 0 ≤ d.toQ
  | .infinity neg => neg = false

/-- Boolean `<` against a rational bound, by cross multiplication. -/
def JsNum.ltB : JsNum → ℚ → Bool
  | .finite d, m => decide (d.num * (m.den : ℤ) < m.num * (10 : ℤ) ^ d.den10)
  | .infinity neg, _ => neg

/-- Boolean `>` against a rational bound, by cross multiplication. -/
def JsNum.gtB : JsNum → ℚ → Bool
  | .finite d, M => decide (M.num * (10 : ℤ) ^ d.den10 < d.num * (M.den : ℤ))
  | .infinity neg, _ => !neg

/-- Boolean `0 ≤` for a parsed value. -/
def JsNum.geZeroB : JsNum → Bool
  | .finite d => decide (0 ≤ d.num)
  | .infinity neg => !neg

/-- The boolean strict lower-bound test means exactly `JsLt`. -/
theorem ltB_iff (x : JsNum) (m : ℚ) : JsNum.ltB x m = true ↔ JsLt x m := by
  cases x with
  | infinity neg => rfl
  | finite d =>
    show decide (d.num * (m.den : ℤ) < m.num * (10 : ℤ) ^ d.den10) = true ↔ d.toQ < m
    rw [decide_eq_true_iff]
    unfold DecNum.toQ
    rw [div_lt_iff (by positivity)]
    have hden : (0 : ℚ) < (m.den : ℚ) := by exact_mod_cast m.pos
    have hmd : (m.num : ℚ) = m * (m.den : ℚ) :=
      (div_eq_iff (ne_of_gt hden)).mp (Rat.num_div_den m)
    constructor
    · intro h
      have h2 : (d.num : ℚ) * (m.den : ℚ) < (m.num : ℚ) * (10 : ℚ) ^ d.den10 := by
        exact_mod_cast h
      rw [hmd] at h2
      have hcomm : m * (m.den : ℚ) * (10 : ℚ) ^ d.den10
          = m * (10 : ℚ) ^ d.den10 * (m.den : ℚ) := by ring
      rw [hcomm] at h2
      exact (mul_lt_mul_right hden).mp h2
    · intro h
      have h3 : (d.num : ℚ) * (m.den : ℚ) < m * (10 : ℚ) ^ d.den10 * (m.den : ℚ) :=
        (mul_lt_mul_right hden).mpr h
      have h4 : m * (10 : ℚ) ^ d.den10 * (m.den : ℚ)
          = (m.num : ℚ) * (10 : ℚ) ^ d.den10 := by rw [hmd]; ring
      rw [h4] at h3
      exact_mod_cast h3

/-- The boolean strict upper-bound test means exactly `JsGt`. -/
theorem gtB_iff (x : JsNum) (M : ℚ) : JsNum.gtB x M = true ↔ JsGt x M := by
  cases x with
  | infinity neg => cases neg <;> simp [JsNum.gtB, JsGt]
  | finite d =>
    show decide (M.num * (10 : ℤ) ^ d.den10 < d.num * (M.den : ℤ)) = true ↔ M < d.toQ
    rw [decide_eq_true_iff]
    unfold DecNum.toQ
    rw [lt_div_iff (by positivity)]
    have hden : (0 : ℚ) < (M.den : ℚ) := by exact_mod_cast M.pos
    have hmd : (M.num : ℚ) = M * (M.den : ℚ) :=
      (div_eq_iff (ne_of_gt hden)).mp (Rat.num_div_den M)
    constructor
    · intro h
      have h2 : (M.num : ℚ) * (10 : ℚ) ^ d.den10 < (d.num : ℚ) * (M.den : ℚ) := by
        exact_mod_cast h
      rw [hmd] at h2
      have hcomm : M * (M.den : ℚ) * (10 : ℚ) ^ d.den10
          = M * (10 : ℚ) ^ d.den10 * (M.den : ℚ) := by ring
      rw [hcomm] at h2
      exact (mul_lt_mul_right hden).mp h2
    · intro h
      have h3 : M * (10 : ℚ) ^ d.den10 * (M.den : ℚ) < (d.num : ℚ) * (M.den : ℚ) :=
        (mul_lt_mul_right hden).mpr h
      have h4 : M * (10 : ℚ) ^ d.den10 * (M.den : ℚ)
          = (M.num : ℚ) * (10 : ℚ) ^ d.den10 := by rw [hmd]; ring
      rw [h4] at h3
      exact_mod_cast h3

/-- The boolean nonnegativity test means exactly `JsGe0`. -/
theorem geZeroB_iff (x : JsNum) : JsNum.geZeroB x = true ↔ JsGe0 x := by
  cases x with
  | infinity neg => cases neg <;> simp [JsNum.geZeroB, JsGe0]
  | finite d =>
    show decide (0 ≤ d.num) = true ↔ 0 ≤ d.toQ
    rw [decide_eq_true_iff]
    unfold DecNum.toQ
    rw [le_div_iff (by positivity), zero_mul]
    exact ⟨fun h => by exact_mod_cast h, fun h => by exact_mod_cast h⟩

/-- Result shape of the generic field validators. -/
structure ValidationResult where
  isValid : Bool
  message : String
deriving DecidableEq, Repr

/-- Integer-valued rationals print like JavaScript integers; other values keep
an explicit fraction form (every bound the claims use is an integer). -/
def ratToString (q : ℚ) : String :=
  if q.den = 1 then toString q.num else toString q.num ++ "/" ++ toString q.den

/-- `validationUtils.validateNumber`: parse, then check the minimum, then the
optional maximum. -/
def validateNumber (value : List Char) (lo : ℚ) (hi : Option ℚ) : ValidationResult :=
  match parseFloat value with
  | none => { isValid := false, message := "Valor deve ser um número válido" }
  | some numValue =>
    if numValue.ltB lo then
      { isValid := false, message := "Valor mínimo é " ++ ratToString lo }
    else
      match hi with
      | some M =>
        if numValue.gtB M then
          { isValid := false, message := "Valor máximo é " ++ ratToString M }
        else { isValid := true, message := "" }
      | none => { isValid := true, message := "" }

/-- `value.replace(/[^\d.,]/g, '')`: keep digits, dots and commas. -/
def currencyClean (value : List Char) : List Char :=
  value.filter (fun c => c.isDigit || c = '.' || c = ',')

/-- `.replace(',', '.')`: only the first comma becomes a dot. -/
def replaceFirstComma : List Char → List Char
  | [] => []
  | c :: r => if c = ',' then '.' :: r else c :: replaceFirstComma r

/-- `validationUtils.validateCurrency`: clean, normalize the first comma,
parse, and require a nonnegative value. -/
def validateCurrency (value : List Char) : Bool :=
  match parseFloat (replaceFirstComma (currencyClean value)) with
  | none => false
  | some numValue => numValue.geZeroB

/-- `trim()`: drop whitespace from both ends. -/
def jsTrim (s : List Char) : List Char :=
  ((s.dropWhile isWs).reverse.dropWhile isWs).reverse

/-- `validationUtils.validateRequired`. -/
def validateRequired (value : List Char) (fieldName : String) : ValidationResult :=
  if 0 < (jsTrim value).length then { isValid := true, message := "" }
  else { isValid := false, message := fieldName ++ " é obrigatório" }

/-- C5: `validateNumber` reports an unparsable value, then a value strictly
below the minimum citing the minimum, then a value strictly above a supplied
maximum citing the maximum, and otherwise is valid with an empty message. -/
theorem claim_C5 (v : List Char) (m : ℚ) (M : Option ℚ) :
    (parseFloat v = none →
      validateNumber v m M
        = { isValid := false, message := "Valor deve ser um número válido" }) ∧
    (∀ x, parseFloat v = some x → JsLt x m →
      validateNumber v m M
        = { isValid := false, message := "Valor mínimo é " ++ ratToString m }) ∧
    (∀ x N, parseFloat v = some x → ¬ JsLt x m → M = some N → JsGt x N →
      validateNumber v m M
        = { isValid := false, message := "Valor máximo é " ++ ratToString N }) ∧
    (∀ x, parseFloat v = some x → ¬ JsLt x m → (∀ N, M = some N → ¬ JsGt x N) →
      validateNumber v m M = { isValid := true, message := "" }) := by
  refine ⟨fun h => ?_, fun x hx hlt => ?_, fun x N hx hnlt hM hgt => ?_,
    fun x hx hnlt hng => ?_⟩
  · simp only [validateNumber, h]
  · simp only [validateNumber, hx]
    rw [if_pos ((ltB_iff x m).mpr hlt)]
  · simp only [validateNumber, hx, hM]
    rw [if_neg (fun hb => hnlt ((ltB_iff x m).mp hb)),
      if_pos ((gtB_iff x N).mpr hgt)]
  · cases M with
    | none =>
      simp only [validateNumber, hx]
      rw [if_neg (fun hb => hnlt ((ltB_iff x m).mp hb))]
    | some N =>
      simp only [validateNumber, hx]
      rw [if_neg (fun hb => hnlt ((ltB_iff x m).mp hb)),
        if_neg (fun hb => hng N rfl ((gtB_iff x N).mp hb))]

/-- Witness for C5 at the spec's three concrete examples. -/
theorem claim_C5_witness :
    validateNumber "5".toList 10 none
      = { isValid := false, message := "Valor mínimo é 10" } ∧
    validateNumber "abc".toList 0 none
      = { isValid := false, message := "Valor deve ser um número válido" } ∧
    validateNumber "5".toList 0 none = { isValid := true, message := "" } := by
  refine ⟨?_, (claim_C5 "abc".toList 0 none).1 (by decide), ?_⟩
  · have h := (claim_C5 "5".toList 10 none).2.1 (JsNum.finite ⟨5, 0⟩) (by decide)
      (by rw [show JsLt (JsNum.finite ⟨5, 0⟩) 10 ↔ _ from (ltB_iff _ _).symm]; decide)
    rw [h]
    decide
  · exact (claim_C5 "5".toList 0 none).2.2.2 (JsNum.finite ⟨5, 0⟩) (by decide)
      (fun hlt => absurd ((ltB_iff _ _).mpr hlt) (by decide))
      (fun N hN => Option.noConfusion hN)

/-- C7: `validateCurrency` accepts exactly the inputs whose cleaned form
(digits, dots and commas kept, first comma turned into a dot) parses to a
nonnegative value; it always returns a boolean. -/
theorem claim_C7 (v : List Char) :
    validateCurrency v = true ↔
      (∃ x, parseFloat (replaceFirstComma (currencyClean v)) = some x ∧ JsGe0 x) := by
  unfold validateCurrency
  cases hp : parseFloat (replaceFirstComma (currencyClean v)) with
  | none => simp
  | some x =>
    constructor
    · intro h
      exact ⟨x, rfl, (geZeroB_iff x).mp h⟩
    · rintro ⟨y, hy, hgy⟩
      injection hy with h2
      subst h2
      exact (geZeroB_iff _).mpr hgy

/-- Appending a nonempty string on the right gives a nonempty string. -/
theorem append_ne_empty_right (a b : String) (h : b ≠ "") : a ++ b ≠ "" := by
  intro hc
  apply h
  have hd : a.data ++ b.data = [] := by
    have := congrArg String.data hc
    simpa [String.data_append] using this
  have hb : b.data = [] := (List.append_eq_nil.mp hd).2
  cases b
  simp_all

/-- Appending a nonempty string on the left gives a nonempty string. -/
theorem append_ne_empty_left (a b : String) (h : a ≠ "") : a ++ b ≠ "" := by
  intro hc
  apply h
  have hd : a.data ++ b.data = [] := by
    have := congrArg String.data hc
    simpa [String.data_append] using this
  have ha : a.data = [] := (List.append_eq_nil.mp hd).1
  cases a
  simp_all

/-- C8: for `validateRequired` and `validateNumber` the message is empty
exactly when the result is valid; `validateDocument` returns the positive
confirmation "CPF válido" or "CNPJ válido" when valid, and a nonempty message
when invalid. -/
theorem claim_C8 (v s : List Char) (f : String) (m : ℚ) (M : Option ℚ) :
    ((validateRequired v f).isValid = true ↔ (validateRequired v f).message = "") ∧
    ((validateNumber v m M).isValid = true ↔ (validateNumber v m M).message = "") ∧
    (((validateDocument s).isValid = true ∧
        ((validateDocument s).message = "CPF válido" ∨
         (validateDocument s).message = "CNPJ válido")) ∨
     ((validateDocument s).isValid = false ∧ (validateDocument s).message ≠ "")) := by
  refine ⟨?_, ?_, ?_⟩
  · unfold validateRequired
    by_cases h : 0 < (jsTrim v).length
    · rw [if_pos h]
      simp
    · rw [if_neg h]
      constructor
      · intro hb
        exact absurd hb (by simp)
      · intro hm
        exact absurd hm (append_ne_empty_right f " é obrigatório" (by decide))
  · cases hp : parseFloat v with
    | none => simp [validateNumber, hp]
    | some x =>
      cases M with
      | none =>
        simp only [validateNumber, hp]
        by_cases hlt : x.ltB m = true
        · rw [if_pos hlt]
          constructor
          · intro hb
            exact absurd hb (by simp)
          · intro hm
            exact absurd hm (append_ne_empty_left "Valor mínimo é " _ (by decide))
        · rw [if_neg hlt]
          simp
      | some N =>
        simp only [validateNumber, hp]
        by_cases hlt : x.ltB m = true
        · rw [if_pos hlt]
          constructor
          · intro hb
            exact absurd hb (by simp)
          · intro hm
            exact absurd hm (append_ne_empty_left "Valor mínimo é " _ (by decide))
        · rw [if_neg hlt]
          by_cases hgt : x.gtB N = true
          · rw [if_pos hgt]
            constructor
            · intro hb
              exact absurd hb (by simp)
            · intro hm
              exact absurd hm (append_ne_empty_left "Valor máximo é " _ (by decide))
          · rw [if_neg hgt]
            simp
  · unfold validateDocument
    by_cases h11 : (cleanStr s).length = 11
    · rw [if_pos h11]
      cases hcpf : validateCPF s with
      | true => exact Or.inl ⟨by simp [hcpf], Or.inl (by simp [hcpf])⟩
      | false => exact Or.inr ⟨by simp [hcpf], by simp [hcpf]⟩
    · rw [if_neg h11]
      by_cases h14 : (cleanStr s).length = 14
      · rw [if_pos h14]
        cases hcnpj : validateCNPJ s with
        | true => exact Or.inl ⟨by simp [hcnpj], Or.inr (by simp [hcnpj])⟩
        | false => exact Or.inr ⟨by simp [hcnpj], by simp [hcnpj]⟩
      · rw [if_neg h14]
        exact Or.inr ⟨rfl, by simp⟩

/-- `takeWhile` over a list whose elements all fail the test is empty. -/
theorem takeWhile_eq_nil_of_none (p : Char → Bool) (l : List Char)
    (h : ∀ c ∈ l, p c = false) : l.takeWhile p = [] := by
  cases l with
  | nil => rfl
  | cons c r => simp [List.takeWhile_cons, h c (by simp)]

/-- `dropWhile` over a list whose elements all fail the test keeps it. -/
theorem dropWhile_eq_self_of_none (p : Char → Bool) (l : List Char)
    (h : ∀ c ∈ l, p c = false) : l.dropWhile p = l := by
  cases l with
  | nil => rfl
  | cons c r => simp [List.dropWhile_cons, h c (by simp)]

/-- `takeWhile` ignores an appended tail whose elements all fail the test. -/
theorem takeWhile_append_none (p : Char → Bool) (a b : List Char)
    (hb : ∀ c ∈ b, p c = false) :
    (a ++ b).takeWhile p = a.takeWhile p := by
  induction a with
  | nil => simpa using takeWhile_eq_nil_of_none p b hb
  | cons x t ih =>
    by_cases hx : p x
    · simp [List.takeWhile_cons, hx, ih]
    · simp [List.takeWhile_cons, hx]

/-- `dropWhile` walks past an appended tail whose elements all fail the test. -/
theorem dropWhile_append_none (p : Char → Bool) (a b : List Char)
    (hb : ∀ c ∈ b, p c = false) :
    (a ++ b).dropWhile p = a.dropWhile p ++ b := by
  induction a with
  | nil => simpa using dropWhile_eq_self_of_none p b hb
  | cons x t ih =>
    by_cases hx : p x
    · simp [List.dropWhile_cons, hx, ih]
    · simp [List.dropWhile_cons, hx]

/-- When `dropWhile` stops inside the first part, appending changes nothing
about where it stops. -/
theorem dropWhile_append_stop (p : Char → Bool) (a b : List Char)
    (ha : a.dropWhile p ≠ []) :
    (a ++ b).dropWhile p = a.dropWhile p ++ b := by
  induction a with
  | nil => simp at ha
  | cons x t ih =>
    by_cases hx : p x
    · have ht : t.dropWhile p ≠ [] := by
        simpa [List.dropWhile_cons, hx] using ha
      simp [List.dropWhile_cons, hx, ih ht]
    · simp [List.dropWhile_cons, hx]

/-- What is left after the sign was read is part of the original input. -/
theorem parseSign_snd_sub (r : List Char) : ∀ c ∈ (parseSign r).2, c ∈ r := by
  cases r with
  | nil => intro c hc; simp [parseSign] at hc
  | cons x t =>
    intro c hc
    simp only [parseSign] at hc
    by_cases hm : x = '-'
    · rw [if_pos hm] at hc
      exact List.mem_cons_of_mem x hc
    · rw [if_neg hm] at hc
      by_cases hq : x = '+'
      · rw [if_pos hq] at hc
        exact List.mem_cons_of_mem x hc
      · rw [if_neg hq] at hc
        exact hc

/-- Reading a sign from a nonempty list then appending commutes. -/
theorem parseSign_append (c : Char) (t junk : List Char) :
    parseSign ((c :: t) ++ junk)
      = ((parseSign (c :: t)).1, (parseSign (c :: t)).2 ++ junk) := by
  simp only [List.cons_append, parseSign]
  by_cases hm : c = '-'
  · simp [hm]
  · by_cases hq : c = '+'
    · simp [hm, hq]
    · simp [hm, hq]

/-- A digit-free list contributes no exponent. -/
theorem expVal_no_digits (l : List Char) (hl : ∀ c ∈ l, c.isDigit = false) :
    expVal l = 0 := by
  cases l with
  | nil => rfl
  | cons c r =>
    simp only [expVal]
    by_cases hce : c = 'e' ∨ c = 'E'
    · rw [if_pos hce]
      have hfree : ∀ x ∈ (parseSign r).2, x.isDigit = false := fun x hx =>
        hl x (List.mem_cons_of_mem c (parseSign_snd_sub r x hx))
      rw [takeWhile_eq_nil_of_none _ _ hfree, if_pos rfl]
    · rw [if_neg hce]

/-- Appending digit-free characters does not change the exponent. -/
theorem expVal_append (rest junk : List Char)
    (hj : ∀ c ∈ junk, c.isDigit = false) :
    expVal (rest ++ junk) = expVal rest := by
  cases rest with
  | nil =>
    rw [List.nil_append]
    exact expVal_no_digits junk hj
  | cons c r2 =>
    rw [List.cons_append]
    simp only [expVal]
    by_cases hce : c = 'e' ∨ c = 'E'
    · rw [if_pos hce, if_pos hce]
      cases r2 with
      | nil =>
        rw [List.nil_append]
        have hfree : ∀ x ∈ (parseSign junk).2, x.isDigit = false := fun x hx =>
          hj x (parseSign_snd_sub junk x hx)
        rw [takeWhile_eq_nil_of_none _ _ hfree]
        rw [show (parseSign ([] : List Char)).2 = [] from rfl]
        rw [show List.takeWhile Char.isDigit ([] : List Char) = [] from rfl]
        rw [if_pos rfl, if_pos rfl]
      | cons r0 r2t =>
        rw [parseSign_append r0 r2t junk]
        rw [show ((parseSign (r0 :: r2t)).1, (parseSign (r0 :: r2t)).2 ++ junk).2
              = (parseSign (r0 :: r2t)).2 ++ junk from rfl]
        rw [show ((parseSign (r0 :: r2t)).1, (parseSign (r0 :: r2t)).2 ++ junk).1
              = (parseSign (r0 :: r2t)).1 from rfl]
        rw [takeWhile_append_none _ _ _ hj]
    · rw [if_neg hce, if_neg hce]

/-- Appending digit-free characters keeps the integer digits, the fraction
digits and the exponent of the literal body. -/
theorem mantissaParts_append (b junk : List Char)
    (hj : ∀ c ∈ junk, c.isDigit = false) :
    (mantissaParts (b ++ junk)).1 = (mantissaParts b).1 ∧
    (mantissaParts (b ++ junk)).2.1 = (mantissaParts b).2.1 ∧
    expVal (mantissaParts (b ++ junk)).2.2 = expVal (mantissaParts b).2.2 := by
  unfold mantissaParts
  rw [takeWhile_append_none _ _ _ hj, dropWhile_append_none _ _ _ hj]
  cases hs1 : b.dropWhile Char.isDigit with
  | nil =>
    rw [List.nil_append]
    rw [if_neg (show ¬ (([] : List Char).headI = '.' ∧ ([] : List Char) ≠ [])
      from by simp)]
    by_cases hc : junk.headI = '.' ∧ junk ≠ []
    · rw [if_pos hc]
      have hjt : ∀ x ∈ junk.tail, x.isDigit = false := fun x hx =>
        hj x (List.mem_of_mem_tail hx)
      refine ⟨rfl, ?_, ?_⟩
      · show junk.tail.takeWhile Char.isDigit = []
        exact takeWhile_eq_nil_of_none _ _ hjt
      · show expVal (junk.tail.dropWhile Char.isDigit) = expVal []
        rw [dropWhile_eq_self_of_none _ _ hjt, expVal_no_digits _ hjt]
        rfl
    · rw [if_neg hc]
      exact ⟨rfl, rfl, by rw [expVal_no_digits junk hj]; rfl⟩
  | cons c s1t =>
    by_cases hc : c = '.'
    · have hcondR : (c :: s1t).headI = '.' ∧ (c :: s1t) ≠ [] := ⟨by simp [hc], by simp⟩
      have hcondL : ((c :: s1t) ++ junk).headI = '.' ∧ (c :: s1t) ++ junk ≠ [] := by
        rw [List.cons_append]
        exact ⟨by simp [hc], by simp⟩
      rw [if_pos hcondL, if_pos hcondR]
      refine ⟨rfl, ?_, ?_⟩
      · show ((c :: s1t) ++ junk).tail.takeWhile Char.isDigit
          = (c :: s1t).tail.takeWhile Char.isDigit
        rw [List.cons_append, List.tail_cons, List.tail_cons,
          takeWhile_append_none _ _ _ hj]
      · show expVal (((c :: s1t) ++ junk).tail.dropWhile Char.isDigit)
          = expVal ((c :: s1t).tail.dropWhile Char.isDigit)
        rw [List.cons_append, List.tail_cons, List.tail_cons,
          dropWhile_append_none _ _ _ hj]
        exact expVal_append _ _ hj
    · have hcondR : ¬ ((c :: s1t).headI = '.' ∧ (c :: s1t) ≠ []) := by
        intro hcc
        exact hc (by simpa using hcc.1)
      have hcondL : ¬ (((c :: s1t) ++ junk).headI = '.' ∧ ((c :: s1t) ++ junk) ≠ []) := by
        intro hcc
        rw [List.cons_append] at hcc
        exact hc (by simpa using hcc.1)
      rw [if_neg hcondL, if_neg hcondR]
      exact ⟨rfl, rfl, expVal_append _ _ hj⟩

/-- Appending digit-free characters to a literal body that parsed to a value
parses to the same value. -/
theorem parseFloatBody_append (b junk : List Char) (neg : Bool) (x : JsNum)
    (hj : ∀ c ∈ junk, c.isDigit = false)
    (hx : parseFloatBody b neg = some x) :
    parseFloatBody (b ++ junk) neg = some x := by
  unfold parseFloatBody at hx ⊢
  by_cases hInf : b.take 8 = "Infinity".toList
  · have hlen : 8 ≤ b.length := by
      have hl := congrArg List.length hInf
      rw [List.length_take] at hl
      have h8 : "Infinity".toList.length = 8 := by decide
      rw [h8] at hl
      omega
    have htk : (b ++ junk).take 8 = b.take 8 := by
      rw [List.take_append_eq_append_take, show 8 - b.length = 0 by omega]
      simp
    rw [if_pos hInf] at hx
    rw [if_pos (by rw [htk]; exact hInf)]
    exact hx
  · rw [if_neg hInf] at hx
    have hnm : ¬ ((mantissaParts b).1 = [] ∧ (mantissaParts b).2.1 = []) := by
      intro hm
      rw [if_pos hm] at hx
      exact Option.noConfusion hx
    obtain ⟨he1, he2, he3⟩ := mantissaParts_append b junk hj
    have hInf2 : ¬ ((b ++ junk).take 8 = "Infinity".toList) := by
      intro hcontra
      obtain ⟨c0, b', hb⟩ : ∃ c0 b', b = c0 :: b' := by
        cases hbb : b with
        | nil =>
          exfalso
          apply hnm
          rw [hbb]
          exact ⟨rfl, rfl⟩
        | cons c0 b' => exact ⟨c0, b', rfl⟩
      have hc0 : c0.isDigit = true ∨ c0 = '.' := by
        by_cases hdig : c0.isDigit = true
        · exact Or.inl hdig
        · right
          by_contra hdot
          apply hnm
          constructor
          · rw [hb]
            unfold mantissaParts
            split
            · show (c0 :: b').takeWhile Char.isDigit = []
              simp [List.takeWhile_cons, hdig]
            · show (c0 :: b').takeWhile Char.isDigit = []
              simp [List.takeWhile_cons, hdig]
          · rw [hb]
            have hcond : ¬ (((c0 :: b').dropWhile Char.isDigit).headI = '.'
                ∧ (c0 :: b').dropWhile Char.isDigit ≠ []) := by
              intro hcc
              have hdw : (c0 :: b').dropWhile Char.isDigit = c0 :: b' := by
                simp [List.dropWhile_cons, hdig]
              rw [hdw] at hcc
              exact hdot (by simpa using hcc.1)
            unfold mantissaParts
            rw [if_neg hcond]
      have hhead : (b ++ junk).take 8 = c0 :: (b' ++ junk).take 7 := by
        rw [hb, List.cons_append, show (8 : ℕ) = 7 + 1 from rfl, List.take_succ_cons]
      rw [hhead] at hcontra
      have hI : c0 = 'I' := by
        have := congrArg (fun l => l.headI) hcontra
        simpa using this
      rcases hc0 with hdig | hdot
      · rw [hI] at hdig
        exact absurd hdig (by decide)
      · exact absurd (hI.symm.trans hdot) (by decide)
    rw [if_neg hInf2, he1, he2, he3]
    exact hx

/-- Appending digit-free characters to an input that `parseFloat` accepts
leaves the parsed value unchanged. -/
theorem parseFloat_append (v junk : List Char) (x : JsNum)
    (hj : ∀ c ∈ junk, c.isDigit = false)
    (hx : parseFloat v = some x) :
    parseFloat (v ++ junk) = some x := by
  have hne : v.dropWhile isWs ≠ [] := by
    intro h0
    unfold parseFloat at hx
    rw [h0] at hx
    rw [show parseFloatBody (parseSign ([] : List Char)).2
          (parseSign ([] : List Char)).1 = none from by decide] at hx
    exact Option.noConfusion hx
  obtain ⟨c, t, hct⟩ := List.exists_cons_of_ne_nil hne
  have hdw : (v ++ junk).dropWhile isWs = v.dropWhile isWs ++ junk :=
    dropWhile_append_stop isWs v junk hne
  unfold parseFloat at hx ⊢
  rw [hct] at hx
  rw [hdw, hct, parseSign_append c t junk]
  exact parseFloatBody_append _ junk _ x hj hx

/-- C10: a valid numeric field stays valid, with the same structured result,
after any digit-free characters are appended; `parseFloat` accepts the
longest parsable prefix. -/
theorem claim_C10 (v junk : List Char) (m : ℚ) (M : Option ℚ)
    (hjunk : ∀ c ∈ junk, c.isDigit = false)
    (hvalid : (validateNumber v m M).isValid = true) :
    validateNumber (v ++ junk) m M = validateNumber v m M := by
  cases hp : parseFloat v with
  | none =>
    exfalso
    rw [show validateNumber v m M
          = { isValid := false, message := "Valor deve ser um número válido" }
        from by simp [validateNumber, hp]] at hvalid
    exact Bool.noConfusion hvalid
  | some x =>
    have h2 := parseFloat_append v junk x hjunk hp
    unfold validateNumber
    rw [hp, h2]

/-- Witness for C10: "5abc" is not a numeral as a whole, yet validates like
"5" — valid with an empty message under the default bounds. -/
theorem claim_C10_witness :
    validateNumber ("5".toList ++ "abc".toList) 0 none
      = validateNumber "5".toList 0 none ∧
    validateNumber "5abc".toList 0 none = { isValid := true, message := "" } := by
  have h := claim_C10 "5".toList "abc".toList 0 none (by decide) (by decide)
  exact ⟨h, by decide⟩
